import Mathlib

/-!
Verification of the Esquisse replicated-state core: coordinate transforms,
the viewport zoom operator, the broadcast-replicated store, the drawing
document store, and the undo/redo history engine.  Numbers are modelled
as rationals (the source uses IEEE doubles; all the arithmetic facts
proved here are exact, so they hold in particular on every input where
the double computation is exact).
-/

namespace Esquisse

/-- Point as in `src/lib/types/index.ts` (`x`, `y`; the optional
pressure/tilt fields are not consulted by any code under verification). -/
structure Point where
  x : ℚ
  y : ℚ
  deriving DecidableEq, Repr

/-- Stroke as in `src/lib/types/index.ts`. -/
structure Stroke where
  id : String
  color : String
  width : ℚ
  points : List Point
  timestamp : ℚ
  deriving DecidableEq, Repr

/-- Transform (viewport) as in `src/lib/types/index.ts`:
`x`/`y` are the pan offsets, `scale` the zoom scale. -/
structure Transform where
  x : ℚ
  y : ℚ
  scale : ℚ
  deriving DecidableEq, Repr

/-- `screenToWorld` from `src/lib/utils/coordinates.ts`. -/
def screenToWorld (screenX screenY : ℚ) (t : Transform) : Point :=
  { x := (screenX - t.x) / t.scale
    y := (screenY - t.y) / t.scale }

/-- `worldToScreen` from `src/lib/utils/coordinates.ts`. -/
def worldToScreen (worldX worldY : ℚ) (t : Transform) : Point :=
  { x := worldX * t.scale + t.x
    y := worldY * t.scale + t.y }

/-- `MIN_SCALE` from `src/lib/stores/transform.ts`. -/
def MIN_SCALE : ℚ := 1 / 100

/-- `MAX_SCALE` from `src/lib/stores/transform.ts`. -/
def MAX_SCALE : ℚ := 100

/-- `Math.max(MIN_SCALE, Math.min(MAX_SCALE, x))` — the scale clamp used
by the zoom operator. -/
def clampScale (x : ℚ) : ℚ :=
  max MIN_SCALE (min MAX_SCALE x)

/-- The pure state transition of `zoom(delta, mouseX, mouseY)` in the
transform store (`src/lib/stores/transform.ts`): factor `1 + delta*0.001`,
clamped new scale, no-op when the clamped scale is unchanged, otherwise
re-anchor the pan so the world point under the mouse is preserved. -/
def zoomFn (delta mouseX mouseY : ℚ) (t : Transform) : Transform :=
  let zoomFactor := 1 + delta * (1 / 1000)
  let newScale := clampScale (t.scale * zoomFactor)
  if newScale = t.scale then t
  else
    let worldX := (mouseX - t.x) / t.scale
    let worldY := (mouseY - t.y) / t.scale
    { x := mouseX - worldX * newScale
      y := mouseY - worldY * newScale
      scale := newScale }

/-- `pan(deltaX, deltaY)` from `src/lib/stores/transform.ts`. -/
def panFn (deltaX deltaY : ℚ) (t : Transform) : Transform :=
  { x := t.x + deltaX, y := t.y + deltaY, scale := t.scale }

/-- `INITIAL_TRANSFORM` from `src/lib/stores/transform.ts`. -/
def INITIAL_TRANSFORM : Transform := { x := 0, y := 0, scale := 1 }

lemma clampScale_pos (x : ℚ) : 0 < clampScale x := by
  have h : (0 : ℚ) < MIN_SCALE := by norm_num [MIN_SCALE]
  exact lt_of_lt_of_le h (le_max_left _ _)

/-- **C8**: Coordinate round-trip: for every viewport whose scale is
non-zero and every screen point, `worldToScreen` inverts `screenToWorld`
exactly. -/
theorem roundTrip (t : Transform) (sx sy : ℚ) (hs : t.scale ≠ 0) :
    worldToScreen (screenToWorld sx sy t).x (screenToWorld sx sy t).y t
      = { x := sx, y := sy } := by
  simp only [screenToWorld, worldToScreen, Point.mk.injEq]
  constructor <;> field_simp

/-- Witness for C8 at the concrete viewport `{x := 3, y := -7, scale := 2}`
and screen point `(10, 20)`. -/
theorem roundTrip_witness :
    (⟨(3 : ℚ), -7, 2⟩ : Transform).scale ≠ 0 ∧
      worldToScreen (screenToWorld 10 20 ⟨3, -7, 2⟩).x
        (screenToWorld 10 20 ⟨3, -7, 2⟩).y ⟨3, -7, 2⟩ = ⟨10, 20⟩ :=
  ⟨by norm_num, roundTrip ⟨3, -7, 2⟩ 10 20 (by norm_num)⟩

/-- **C5**: Zoom-anchor invariance: if the viewport scale is within
`[MIN_SCALE, MAX_SCALE]` and the new scale `scale * (1 + delta*0.001)` is
reached without clamping and differs from the old scale, then the world
point under the anchor screen coordinate is unchanged by the zoom. -/
theorem zoomAnchorInvariance (t : Transform) (delta ax ay : ℚ)
    (hlo : MIN_SCALE ≤ t.scale) (hhi : t.scale ≤ MAX_SCALE)
    (hnoclamp : clampScale (t.scale * (1 + delta * (1 / 1000)))
      = t.scale * (1 + delta * (1 / 1000)))
    (hne : t.scale * (1 + delta * (1 / 1000)) ≠ t.scale) :
    screenToWorld ax ay (zoomFn delta ax ay t) = screenToWorld ax ay t := by
  have hspos : (0 : ℚ) < t.scale :=
    lt_of_lt_of_le (by norm_num [MIN_SCALE]) hlo
  have hs0 : t.scale ≠ 0 := ne_of_gt hspos
  have hnspos : (0 : ℚ) < t.scale * (1 + delta * (1 / 1000)) := by
    have := clampScale_pos (t.scale * (1 + delta * (1 / 1000)))
    rwa [hnoclamp] at this
  have hns0 : t.scale * (1 + delta * (1 / 1000)) ≠ 0 := ne_of_gt hnspos
  have key : ∀ A X : ℚ,
      (A - (A - (A - X) / t.scale * (t.scale * (1 + delta * (1 / 1000)))))
          / (t.scale * (1 + delta * (1 / 1000))) = (A - X) / t.scale := by
    intro A X
    rw [sub_sub_cancel, mul_div_assoc, div_self hns0, mul_one]
  simp only [zoomFn]
  rw [hnoclamp, if_neg hne]
  simp only [screenToWorld, Point.mk.injEq]
  exact ⟨key ax t.x, key ay t.y⟩

/-- Witness for C5: viewport `{0, 0, 1}`, anchor `(400, 300)`,
`delta = 1000` (factor 2, no clamping, scale changes). -/
theorem zoomAnchorInvariance_witness :
    (MIN_SCALE ≤ (1 : ℚ) ∧ (1 : ℚ) ≤ MAX_SCALE ∧
      clampScale ((1 : ℚ) * (1 + 1000 * (1 / 1000)))
        = (1 : ℚ) * (1 + 1000 * (1 / 1000)) ∧
      (1 : ℚ) * (1 + 1000 * (1 / 1000)) ≠ 1) ∧
    screenToWorld 400 300 (zoomFn 1000 400 300 ⟨0, 0, 1⟩)
      = screenToWorld 400 300 ⟨0, 0, 1⟩ :=
  ⟨⟨by norm_num [MIN_SCALE], by norm_num [MAX_SCALE],
      by norm_num [clampScale, MIN_SCALE, MAX_SCALE], by norm_num⟩,
    zoomAnchorInvariance ⟨0, 0, 1⟩ 1000 400 300
      (by norm_num [MIN_SCALE]) (by norm_num [MAX_SCALE])
      (by norm_num [clampScale, MIN_SCALE, MAX_SCALE]) (by norm_num)⟩

/-- **C6 counterexample**: from `{0, 0, 1}`, `zoom(+1000, 400, 300)` then
`zoom(-1000, 400, 300)` does NOT return to scale 1: the second call has
factor `1 + (-1000)*0.001 = 0`, so the scale clamps to `MIN_SCALE = 0.01`
and the pan lands at `(396, 297)` — far outside any float tolerance of
`(0, 0)` and scale 1. -/
theorem zoomScenario_counterexample :
    zoomFn (-1000) 400 300 (zoomFn 1000 400 300 ⟨0, 0, 1⟩)
        = ⟨396, 297, 1 / 100⟩ ∧
      (zoomFn (-1000) 400 300 (zoomFn 1000 400 300 ⟨0, 0, 1⟩)).scale ≠ 1 ∧
      (1 : ℚ) - (zoomFn (-1000) 400 300
        (zoomFn 1000 400 300 ⟨0, 0, 1⟩)).scale = 99 / 100 := by
  refine ⟨?_, ?_, ?_⟩ <;>
    norm_num [zoomFn, clampScale, MIN_SCALE, MAX_SCALE, Transform.mk.injEq]

/-- **C6 amended**: `zoom(+1000, 400, 300)` doubles the scale
(factor 2); the inverse factor is `1/2`, i.e. `delta = -500`, and with
that second delta the viewport returns exactly to `{0, 0, 1}`; with
`delta = -1000` the factor is `0` and the scale clamps to `MIN_SCALE`. -/
theorem zoomScenario_amended :
    zoomFn (-500) 400 300 (zoomFn 1000 400 300 ⟨0, 0, 1⟩) = ⟨0, 0, 1⟩ ∧
      (zoomFn (-1000) 400 300 (zoomFn 1000 400 300 ⟨0, 0, 1⟩)).scale
        = MIN_SCALE := by
  constructor <;>
    norm_num [zoomFn, clampScale, MIN_SCALE, MAX_SCALE, Transform.mk.injEq]

/-!
## The replicated store

Each store (`drawing.ts`, `transform.ts`) is a svelte `writable` with a
`BroadcastChannel`, an `isReceiving` flag, and helpers `broadcastUpdate` /
`broadcastSet` that post the new state when a channel exists and the flag
is clear.  The channel's `onmessage` handler sets the flag, installs the
payload with `set`, and clears the flag; it never posts.  Messages posted
to the channel are returned explicitly. -/

/-- One replica of a broadcast-synchronised store: its current value,
its `isReceiving` suppression flag, and whether a channel was created
(`browser` true). -/
structure BStore (α : Type) where
  value : α
  isReceiving : Bool
  hasChannel : Bool

/-- `broadcastUpdate(fn)` from `drawing.ts` / `transform.ts`: apply `fn`
to the current value, post the new state iff a channel exists and the
store is not currently applying a remote message.  Returns the updated
store and the list of messages posted. -/
def bUpdate {α : Type} (f : α → α) (s : BStore α) : BStore α × List α :=
  let newState := f s.value
  ({ s with value := newState },
    if s.hasChannel && !s.isReceiving then [newState] else [])

/-- `broadcastSet(value)` from `drawing.ts` / `transform.ts`. -/
def bSet {α : Type} (v : α) (s : BStore α) : BStore α × List α :=
  ({ s with value := v },
    if s.hasChannel && !s.isReceiving then [v] else [])

/-- The `channel.onmessage` handler (identical in `drawing.ts` and
`transform.ts`): set `isReceiving`, `set(event.data)` (full-value
replacement), clear `isReceiving`.  The handler contains no
`postMessage`, so it posts nothing. -/
def onRemoteMessage {α : Type} (data : α) (s : BStore α) : BStore α × List α :=
  ({ s with value := data, isReceiving := false }, [])

/-- Deliver a list of in-flight messages to a store, one `onmessage`
invocation each.  Returns the final store, all messages the store posted
back to the channel while receiving, and the trace of values passed to
`set` (one per delivered message). -/
def deliver {α : Type} : List α → BStore α → BStore α × List α × List α
  | [], s => (s, [], [])
  | m :: rest, s =>
    let step := onRemoteMessage m s
    let r := deliver rest step.1
    (r.1, step.2 ++ r.2.1, m :: r.2.2)

/-- The two-replica scenario: a local `mutate f` on A, then delivery of
every message A posted to B.  Returns `(A', B', messages B posted back,
trace of B's set calls)`. -/
def mutateThenDeliver {α : Type} (f : α → α) (A B : BStore α) :
    BStore α × BStore α × List α × List α :=
  let rA := bUpdate f A
  let rB := deliver rA.2 B
  (rA.1, rB.1, rB.2.1, rB.2.2)

/-- **C1**: No-echo: a single local mutate on A causes exactly one `set`
(full-value replacement with the new state) on B; B posts nothing back
to the channel while applying the inbound value, so no further
deliveries occur; and any `mutate` run while the `isReceiving` flag is
set posts nothing. -/
theorem noEcho {α : Type} (f : α → α) (A B : BStore α)
    (hch : A.hasChannel = true) (hrecv : A.isReceiving = false) :
    (mutateThenDeliver f A B).2.2.2 = [f A.value] ∧
      (mutateThenDeliver f A B).2.1.value = f A.value ∧
      (mutateThenDeliver f A B).2.2.1 = [] ∧
      (∀ g : α → α, (bUpdate g { B with isReceiving := true }).2 = []) := by
  refine ⟨?_, ?_, ?_, ?_⟩ <;>
    simp [mutateThenDeliver, bUpdate, deliver, onRemoteMessage, hch, hrecv]

/-- Witness for C1: concrete replicas over `Nat`, mutation `+ 1`. -/
theorem noEcho_witness :
    ((⟨(0 : Nat), false, true⟩ : BStore Nat).hasChannel = true ∧
        (⟨(0 : Nat), false, true⟩ : BStore Nat).isReceiving = false) ∧
      ((mutateThenDeliver (· + 1) ⟨0, false, true⟩
          (⟨5, false, true⟩ : BStore Nat)).2.2.2 = [(0 : Nat) + 1] ∧
        (mutateThenDeliver (· + 1) ⟨0, false, true⟩
          (⟨5, false, true⟩ : BStore Nat)).2.1.value = (0 : Nat) + 1 ∧
        (mutateThenDeliver (· + 1) ⟨0, false, true⟩
          (⟨5, false, true⟩ : BStore Nat)).2.2.1 = [] ∧
        (∀ g : Nat → Nat,
          (bUpdate g { (⟨5, false, true⟩ : BStore Nat) with
            isReceiving := true }).2 = [])) :=
  ⟨⟨rfl, rfl⟩, noEcho (· + 1) ⟨0, false, true⟩ ⟨5, false, true⟩ rfl rfl⟩

/-- The transform store's `zoom` method: `broadcastUpdate` applied to the
pure zoom transition. -/
def zoomStore (delta mouseX mouseY : ℚ) (s : BStore Transform) :
    BStore Transform × List Transform :=
  bUpdate (zoomFn delta mouseX mouseY) s

/-- **C9**: `broadcastUpdate` posts exactly one message carrying the
resulting state on every local call; in particular a `zoom` whose
clamped new scale equals the current scale leaves the value untouched
but still posts one message (the unchanged state). -/
theorem alwaysBroadcasts (delta mouseX mouseY : ℚ) (s : BStore Transform)
    (hch : s.hasChannel = true) (hrecv : s.isReceiving = false)
    (hclamp : clampScale (s.value.scale * (1 + delta * (1 / 1000)))
      = s.value.scale) :
    (zoomStore delta mouseX mouseY s).2 = [s.value] ∧
      (zoomStore delta mouseX mouseY s).1.value = s.value ∧
      (∀ f : Transform → Transform, (bUpdate f s).2 = [f s.value]) := by
  have hz : zoomFn delta mouseX mouseY s.value = s.value := by
    simp only [zoomFn]
    rw [if_pos hclamp]
  refine ⟨?_, ?_, ?_⟩ <;> simp [zoomStore, bUpdate, hch, hrecv, hz]

/-- Witness for C9: viewport at `MAX_SCALE = 100`, `delta = 1000`
(factor 2 clamps back to 100): the value is unchanged and exactly one
message with that value is posted. -/
theorem alwaysBroadcasts_witness :
    ((⟨⟨0, 0, 100⟩, false, true⟩ : BStore Transform).hasChannel = true ∧
        (⟨⟨0, 0, 100⟩, false, true⟩ : BStore Transform).isReceiving = false ∧
        clampScale ((⟨⟨0, 0, 100⟩, false, true⟩ : BStore Transform).value.scale
          * (1 + 1000 * (1 / 1000)))
          = (⟨⟨0, 0, 100⟩, false, true⟩ : BStore Transform).value.scale) ∧
      ((zoomStore 1000 400 300 ⟨⟨0, 0, 100⟩, false, true⟩).2
          = [(⟨⟨0, 0, 100⟩, false, true⟩ : BStore Transform).value] ∧
        (zoomStore 1000 400 300 ⟨⟨0, 0, 100⟩, false, true⟩).1.value
          = (⟨⟨0, 0, 100⟩, false, true⟩ : BStore Transform).value ∧
        (∀ f : Transform → Transform,
          (bUpdate f (⟨⟨0, 0, 100⟩, false, true⟩ : BStore Transform)).2
            = [f (⟨⟨0, 0, 100⟩, false, true⟩ : BStore Transform).value])) :=
  ⟨⟨rfl, rfl, by norm_num [clampScale, MIN_SCALE, MAX_SCALE]⟩,
    alwaysBroadcasts 1000 400 300 ⟨⟨0, 0, 100⟩, false, true⟩ rfl rfl
      (by norm_num [clampScale, MIN_SCALE, MAX_SCALE])⟩

/-!
## Untyped payloads and shape validation

The broadcast `onmessage` handlers receive `event.data` untyped at
runtime; `fileIO.ts` has duck-typed validators (`validateEsquisseFile`,
`validateStroke`).  `JsValue` models the runtime values these routines
can see. -/

/-- A runtime JavaScript value, as inspected by the duck-typed
validators in `fileIO.ts`. -/
inductive JsValue where
  | jsUndefined
  | jsNull
  | jsBool (b : Bool)
  | num (q : ℚ)
  | str (s : String)
  | arr (elems : List JsValue)
  | obj (fields : List (String × JsValue))
  deriving Repr, BEq

/-- JS truthiness (`!x` negated): `undefined`, `null`, `false`, `0` and
`""` are falsy; everything else this model can represent is truthy. -/
def truthy : JsValue → Bool
  | .jsUndefined => false
  | .jsNull => false
  | .jsBool b => b
  | .num q => if q = 0 then false else true
  | .str s => if s = "" then false else true
  | .arr _ => true
  | .obj _ => true

/-- `typeof x === 'object'`: true for `null`, arrays and objects. -/
def typeofIsObject : JsValue → Bool
  | .jsNull => true
  | .arr _ => true
  | .obj _ => true
  | _ => false

/-- `typeof x === 'string'`. -/
def isString : JsValue → Bool
  | .str _ => true
  | _ => false

/-- `typeof x === 'number'`. -/
def isNumber : JsValue → Bool
  | .num _ => true
  | _ => false

/-- `x <= 0` on a JS value known to be inspected after a number check
(non-numbers answer `false`, as the comparison is short-circuited away
in the source). -/
def numLeZero : JsValue → Bool
  | .num q => if q ≤ 0 then true else false
  | _ => false

/-- Property access `v[key]`: first matching field of an object,
`undefined` otherwise (arrays and primitives have none of the field
names used by the validators). -/
def getProp (v : JsValue) (key : String) : JsValue :=
  match v with
  | .obj fields =>
    match fields.lookup key with
    | some x => x
    | none => .jsUndefined
  | _ => .jsUndefined

/-- A point as validated inside `validateStroke` (`fileIO.ts`): a truthy
object with numeric `x` and `y`. -/
def validatePoint (p : JsValue) : Bool :=
  if !(truthy p) || !(typeofIsObject p) then false
  else if !(isNumber (getProp p "x")) || !(isNumber (getProp p "y")) then false
  else true

/-- `validateStroke` from `fileIO.ts`. -/
def validateStroke (stroke : JsValue) : Bool :=
  if !(truthy stroke) || !(typeofIsObject stroke) then false
  else if !(truthy (getProp stroke "id"))
      || !(isString (getProp stroke "id")) then false
  else if !(truthy (getProp stroke "color"))
      || !(isString (getProp stroke "color")) then false
  else if !(isNumber (getProp stroke "width"))
      || numLeZero (getProp stroke "width") then false
  else
    match getProp stroke "points" with
    | .arr pts =>
      if pts.isEmpty then false
      else if !(pts.all validatePoint) then false
      else if !(isNumber (getProp stroke "timestamp")) then false
      else true
    | _ => false

/-- `validateEsquisseFile` from `fileIO.ts`. -/
def validateEsquisseFile (data : JsValue) : Bool :=
  if !(truthy data) || !(typeofIsObject data) then false
  else if !(truthy (getProp data "version"))
      || !(isString (getProp data "version")) then false
  else if !(truthy (getProp data "created"))
      || !(isString (getProp data "created")) then false
  else if !(truthy (getProp data "modified"))
      || !(isString (getProp data "modified")) then false
  else
    match getProp data "strokes" with
    | .arr strokes => strokes.all validateStroke
    | _ => false

/-- The validation step of `deserializeEsquisseFile` from `fileIO.ts`
(the input is the already-parsed JSON value): throws
`'Invalid Esquisse file format'` unless `validateEsquisseFile` passes. -/
def deserializeEsquisseFile (data : JsValue) : Except String JsValue :=
  if validateEsquisseFile data then .ok data
  else .error "Invalid Esquisse file format"

/-- A structurally valid drawing-state-like payload used as the
receiving store's value in the C4 counterexample. -/
def wellFormedValue : JsValue :=
  .obj [("strokes", .arr []), ("currentStroke", .jsNull),
    ("currentFile", .jsNull)]

/-- **C4 counterexample**: the broadcast `onmessage` handler performs no
shape validation: the payload `"stale"` fails `validateEsquisseFile`
(it is not even an object), yet delivering it to a store installs it
verbatim and the store value does change — it is not dropped. -/
theorem validateBeforeSet_counterexample :
    validateEsquisseFile (.str "stale") = false ∧
      (onRemoteMessage (.str "stale")
        ⟨wellFormedValue, false, true⟩).1.value = .str "stale" ∧
      (onRemoteMessage (.str "stale")
        ⟨wellFormedValue, false, true⟩).1.value ≠ wellFormedValue := by
  refine ⟨rfl, rfl, ?_⟩
  simp [onRemoteMessage, wellFormedValue]

/-- **C4 amended**: the remote-message handlers install every inbound
payload verbatim via `set`, with no shape validation and no partial
application (and post nothing); shape validation exists only on the
file-load path, where `deserializeEsquisseFile` rejects any value
failing `validateEsquisseFile`. -/
theorem remoteHandler_noValidation (p : JsValue) (s : BStore JsValue) :
    (onRemoteMessage p s).1.value = p ∧ (onRemoteMessage p s).2 = [] ∧
      (validateEsquisseFile p = false →
        deserializeEsquisseFile p = .error "Invalid Esquisse file format") := by
  refine ⟨rfl, rfl, fun hv => ?_⟩
  simp [deserializeEsquisseFile, hv]

/-- Witness for the amended C4 at the payload `"stale"` and a concrete
store. -/
theorem remoteHandler_noValidation_witness :
    ((onRemoteMessage (.str "stale")
        ⟨wellFormedValue, false, true⟩).1.value = .str "stale" ∧
      (onRemoteMessage (.str "stale")
        ⟨wellFormedValue, false, true⟩).2 = [] ∧
      (validateEsquisseFile (.str "stale") = false →
        deserializeEsquisseFile (.str "stale")
          = .error "Invalid Esquisse file format")) :=
  remoteHandler_noValidation (.str "stale") ⟨wellFormedValue, false, true⟩

/-!
## History engine and drawing store

`history.ts` keeps `past`/`future` stacks with a `maxSize` field;
`drawing.ts` keeps `{strokes, currentStroke, currentFile}` and drives the
history on `finishStroke`, `removeStroke`, `clear`, `undo`, `redo`.
`AppState` bundles the two module-level stores; the broadcast side
effects (modelled above) do not alter the local state transition. -/

/-- `HistoryAction` from `history.ts`. -/
inductive HistoryAction where
  | strokeAdd (stroke : Stroke)
  | strokeRemove (stroke : Stroke) (index : Nat)
  | strokesClear (strokes : List Stroke)
  deriving DecidableEq, Repr

/-- `HistoryState` from `history.ts`. -/
structure HistoryState where
  past : List HistoryAction
  future : List HistoryAction
  maxSize : Nat
  deriving DecidableEq, Repr

/-- `MAX_HISTORY_SIZE` from `history.ts`. -/
def MAX_HISTORY_SIZE : Nat := 100

/-- The history store's `initialState`. -/
def historyInitial : HistoryState :=
  { past := [], future := [], maxSize := MAX_HISTORY_SIZE }

/-- `record(action)` from `history.ts`: push onto `past`, `shift` the
oldest entry off when the size bound is exceeded, clear `future`. -/
def record (action : HistoryAction) (st : HistoryState) : HistoryState :=
  let newPast := st.past ++ [action]
  { st with
    past := if newPast.length > st.maxSize then newPast.drop 1 else newPast
    future := [] }

/-- `undo()` from `history.ts`: pop the last of `past`, push it onto
`future`, return it; `(none, unchanged)` when `past` is empty. -/
def hUndo (st : HistoryState) : Option HistoryAction × HistoryState :=
  match st.past.getLast? with
  | none => (none, st)
  | some action =>
    (some action,
      { st with past := st.past.dropLast, future := st.future ++ [action] })

/-- `redo()` from `history.ts`: pop the last of `future`, push it onto
`past` (no size check), return it; `(none, unchanged)` when `future` is
empty. -/
def hRedo (st : HistoryState) : Option HistoryAction × HistoryState :=
  match st.future.getLast? with
  | none => (none, st)
  | some action =>
    (some action,
      { st with past := st.past ++ [action], future := st.future.dropLast })

/-- `EsquisseFile` metadata record from `fileIO.ts` (typed form, as
stored in `DrawingState.currentFile`). -/
structure EsquisseFileT where
  version : String
  created : String
  modified : String
  strokes : List Stroke
  deriving DecidableEq, Repr

/-- `DrawingState` from `drawing.ts`. -/
structure DrawingState where
  strokes : List Stroke
  currentStroke : Option Stroke
  currentFile : Option EsquisseFileT
  deriving DecidableEq, Repr

/-- The drawing store's `initialState`. -/
def drawingInitial : DrawingState :=
  { strokes := [], currentStroke := none, currentFile := none }

/-- The two module-level stores the drawing operations touch. -/
structure AppState where
  drawing : DrawingState
  hist : HistoryState
  deriving DecidableEq, Repr

/-- `startStroke(stroke)` from `drawing.ts`. -/
def startStroke (stroke : Stroke) (a : AppState) : AppState :=
  { a with drawing := { a.drawing with currentStroke := some stroke } }

/-- `finishStroke()` from `drawing.ts`: no-op without a current stroke;
otherwise record `stroke_add`, append the stroke, clear the current
stroke. -/
def finishStroke (a : AppState) : AppState :=
  match a.drawing.currentStroke with
  | none => a
  | some cs =>
    { drawing := { a.drawing with
        strokes := a.drawing.strokes ++ [cs], currentStroke := none }
      hist := record (.strokeAdd cs) a.hist }

/-- `removeStroke(index, recordHistory)` from `drawing.ts`: defensive
no-op on an out-of-range index; otherwise optionally record
`stroke_remove` with the removed stroke and its index, then splice the
stroke out. -/
def removeStroke (index : Int) (recordHistory : Bool) (a : AppState) :
    AppState :=
  if index < 0 ∨ (a.drawing.strokes.length : Int) ≤ index then a
  else
    match a.drawing.strokes[index.toNat]? with
    | none => a
    | some stroke =>
      { drawing := { a.drawing with
          strokes := a.drawing.strokes.eraseIdx index.toNat }
        hist := if recordHistory
          then record (.strokeRemove stroke index.toNat) a.hist
          else a.hist }

/-- `clear()` from `drawing.ts`: record `strokes_clear` with the current
strokes when non-empty, then `broadcastSet(initialState)`. -/
def clear (a : AppState) : AppState :=
  { drawing := drawingInitial
    hist := if a.drawing.strokes.length > 0
      then record (.strokesClear a.drawing.strokes) a.hist
      else a.hist }

/-- `Array.prototype.splice(i, 0, x)`: insert `x` at index `i`, clamped
to the array length. -/
def spliceInsert (i : Nat) (x : Stroke) (l : List Stroke) : List Stroke :=
  l.take i ++ x :: l.drop i

/-- `undo()` from `drawing.ts`: pop the history entry (no-op when there
is none) and apply its inverse to the drawing state: `stroke_add` ⇒
`strokes.slice(0, -1)`; `stroke_remove` ⇒ re-insert the recorded stroke
at the recorded index; `strokes_clear` ⇒ restore the recorded strokes. -/
def undo (a : AppState) : AppState :=
  match hUndo a.hist with
  | (none, _) => a
  | (some action, h) =>
    match action with
    | .strokeAdd _ =>
      { drawing := { a.drawing with strokes := a.drawing.strokes.dropLast }
        hist := h }
    | .strokeRemove stroke index =>
      { drawing := { a.drawing with
          strokes := spliceInsert index stroke a.drawing.strokes }
        hist := h }
    | .strokesClear strokes =>
      { drawing := { a.drawing with strokes := strokes }, hist := h }

/-- `redo()` from `drawing.ts`: pop the redo entry (no-op when there is
none) and re-apply its forward effect. -/
def redo (a : AppState) : AppState :=
  match hRedo a.hist with
  | (none, _) => a
  | (some action, h) =>
    match action with
    | .strokeAdd stroke =>
      { drawing := { a.drawing with
          strokes := a.drawing.strokes ++ [stroke] }
        hist := h }
    | .strokeRemove _ index =>
      { drawing := { a.drawing with
          strokes := a.drawing.strokes.eraseIdx index }
        hist := h }
    | .strokesClear _ =>
      { drawing := { a.drawing with strokes := [] }, hist := h }

/-- A concrete committed stroke. -/
def strokeA : Stroke :=
  { id := "a", color := "#000000", width := 2, points := [⟨0, 0⟩]
    timestamp := 0 }

/-- A second, distinct concrete stroke. -/
def strokeB : Stroke :=
  { id := "b", color := "#ff0000", width := 3, points := [⟨1, 1⟩]
    timestamp := 1 }

/-- A state whose history records `strokeA` as the last appended stroke
while a remote whole-document replacement has since made `strokeB` the
last element of the strokes array. -/
def c3State : AppState where
  drawing := { strokes := [strokeA, strokeB], currentStroke := none, currentFile := none }
  hist := { past := [.strokeAdd strokeA], future := [], maxSize := MAX_HISTORY_SIZE }

/-- **C3 counterexample**: undoing the `stroke_add` entry that recorded
`strokeA` removes `strokeB` — the instantaneous last element — and
leaves the recorded stroke `strokeA` in place: the claim that the
logical last stroke named in the entry is removed fails. -/
theorem undoStrokeAdd_counterexample :
    c3State.hist.past.getLast? = some (.strokeAdd strokeA) ∧
      (undo c3State).drawing.strokes = [strokeA] ∧
      strokeA ∈ (undo c3State).drawing.strokes ∧
      (undo c3State).drawing.strokes ≠ [strokeB] ∧
      strokeA ≠ strokeB := by
  refine ⟨rfl, rfl, ?_, ?_, ?_⟩ <;> decide

/-- Effect of `undo` when the top history entry is `stroke_add`:
`slice(0, -1)` on the strokes, everything else framed. -/
lemma undo_strokeAdd (a : AppState) (s : Stroke)
    (h : a.hist.past.getLast? = some (.strokeAdd s)) :
    (undo a).drawing.strokes = a.drawing.strokes.dropLast ∧
      (undo a).drawing.currentStroke = a.drawing.currentStroke ∧
      (undo a).drawing.currentFile = a.drawing.currentFile ∧
      (undo a).hist.past = a.hist.past.dropLast ∧
      (undo a).hist.maxSize = a.hist.maxSize := by
  simp only [undo, hUndo, h]
  simp

/-- Effect of `undo` when the top history entry is `stroke_remove`:
splice the recorded stroke back in at the recorded index. -/
lemma undo_strokeRemove (a : AppState) (s : Stroke) (i : Nat)
    (h : a.hist.past.getLast? = some (.strokeRemove s i)) :
    (undo a).drawing.strokes = spliceInsert i s a.drawing.strokes ∧
      (undo a).drawing.currentStroke = a.drawing.currentStroke ∧
      (undo a).drawing.currentFile = a.drawing.currentFile ∧
      (undo a).hist.past = a.hist.past.dropLast ∧
      (undo a).hist.maxSize = a.hist.maxSize := by
  simp only [undo, hUndo, h]
  simp

/-- **C3 amended**: undoing a `stroke_add` history entry removes
whatever element is last in the document's strokes array at the moment
`undo()` runs (`strokes.slice(0, -1)`), ignoring the stroke recorded in
the entry; the two coincide only when the recorded stroke is still the
instantaneous last element. -/
theorem undoStrokeAdd_amended (a : AppState) (s : Stroke)
    (h : a.hist.past.getLast? = some (.strokeAdd s)) :
    (undo a).drawing.strokes = a.drawing.strokes.dropLast ∧
      (undo a).hist.past = a.hist.past.dropLast :=
  ⟨(undo_strokeAdd a s h).1, (undo_strokeAdd a s h).2.2.2.1⟩

/-- Witness for the amended C3 at `c3State`. -/
theorem undoStrokeAdd_amended_witness :
    c3State.hist.past.getLast? = some (.strokeAdd strokeA) ∧
      ((undo c3State).drawing.strokes = c3State.drawing.strokes.dropLast ∧
        (undo c3State).hist.past = c3State.hist.past.dropLast) :=
  ⟨rfl, undoStrokeAdd_amended c3State strokeA rfl⟩

/-- Inverting a `strokes_clear` entry touches only the `strokes` field:
`currentStroke` and `currentFile` pass through `undo` unchanged. -/
lemma undo_strokesClear (a : AppState) (ss : List Stroke)
    (h : a.hist.past.getLast? = some (.strokesClear ss)) :
    (undo a).drawing.strokes = ss ∧
      (undo a).drawing.currentStroke = a.drawing.currentStroke ∧
      (undo a).drawing.currentFile = a.drawing.currentFile ∧
      (undo a).hist.past = a.hist.past.dropLast ∧
      (undo a).hist.maxSize = a.hist.maxSize := by
  simp only [undo, hUndo, h]
  simp

/-- `record` leaves the recorded entry as the last element of `past`
whenever the size bound is positive. -/
lemma record_getLast? (e : HistoryAction) (h : HistoryState)
    (hm : 1 ≤ h.maxSize) :
    (record e h).past.getLast? = some e := by
  simp only [record]
  split
  next hgt =>
    cases hp : h.past with
    | nil =>
      rw [hp] at hgt
      simp at hgt
      omega
    | cons x rest =>
      simp only [List.cons_append, List.drop_succ_cons, List.drop_zero]
      exact List.getLast?_concat _
  next => exact List.getLast?_concat _

/-- A state with an in-progress stroke, an empty committed-strokes array
and a `stroke_remove` entry on top of the history. -/
def c10State : AppState where
  drawing := { strokes := [], currentStroke := some strokeA, currentFile := none }
  hist := { past := [.strokeRemove strokeB 0], future := [], maxSize := MAX_HISTORY_SIZE }

/-- **C10 counterexample**: at `c10State` (non-null `currentStroke`,
empty committed strokes, a `stroke_remove` entry on the history),
`clear()` records nothing, so the following `undo()` pops the older
`stroke_remove` entry and re-inserts `strokeB`: the committed strokes
are `[strokeB]`, not the original `[]` — the claim's quantification
over every state with a non-null `currentStroke` fails. -/
theorem undoAfterClear_counterexample :
    c10State.drawing.currentStroke ≠ none ∧
      c10State.drawing.strokes = [] ∧
      (undo (clear c10State)).drawing.strokes = [strokeB] ∧
      (undo (clear c10State)).drawing.strokes ≠ c10State.drawing.strokes := by
  refine ⟨?_, rfl, rfl, ?_⟩ <;> decide

/-- **C10 amended**: undoing a `strokes_clear` entry modifies only the
`strokes` field (leaving `currentStroke` and `currentFile` unchanged);
and for every state with a non-null `currentStroke` and NON-EMPTY
committed strokes (and the store's size bound 100), `clear()` followed
by `undo()` restores the committed strokes while `currentStroke` stays
`null` — the in-progress stroke discarded by `clear()` is never
restored. -/
theorem undoClearFrame_amended :
    (∀ (a : AppState) (ss : List Stroke),
        a.hist.past.getLast? = some (.strokesClear ss) →
        (undo a).drawing.strokes = ss ∧
          (undo a).drawing.currentStroke = a.drawing.currentStroke ∧
          (undo a).drawing.currentFile = a.drawing.currentFile) ∧
      (∀ a : AppState, a.hist.maxSize = MAX_HISTORY_SIZE →
        a.drawing.currentStroke ≠ none → a.drawing.strokes ≠ [] →
        (undo (clear a)).drawing.strokes = a.drawing.strokes ∧
          (undo (clear a)).drawing.currentStroke = none) := by
  refine ⟨fun a ss h => ⟨(undo_strokesClear a ss h).1,
    (undo_strokesClear a ss h).2.1, (undo_strokesClear a ss h).2.2.1⟩,
    fun a hm _ hne => ?_⟩
  have hcl : (clear a).hist = record (.strokesClear a.drawing.strokes) a.hist := by
    simp only [clear]
    rw [if_pos (List.length_pos.mpr hne)]
  have hlast : (clear a).hist.past.getLast?
      = some (.strokesClear a.drawing.strokes) := by
    rw [hcl]
    exact record_getLast? _ _ (by rw [hm]; norm_num [MAX_HISTORY_SIZE])
  obtain ⟨h1, h2, _⟩ := undo_strokesClear (clear a) a.drawing.strokes hlast
  refine ⟨h1, ?_⟩
  rw [h2]
  rfl

/-- Witness for the amended C10: part one at a state whose top history
entry is `strokes_clear [strokeB]`; part two at a one-stroke document
with an in-progress stroke. -/
theorem undoClearFrame_amended_witness :
    ((⟨⟨[], some strokeA, none⟩,
          ⟨[.strokesClear [strokeB]], [], MAX_HISTORY_SIZE⟩⟩ :
        AppState).hist.past.getLast? = some (.strokesClear [strokeB]) ∧
      (undo (⟨⟨[], some strokeA, none⟩,
          ⟨[.strokesClear [strokeB]], [], MAX_HISTORY_SIZE⟩⟩ :
        AppState)).drawing.strokes = [strokeB]) ∧
      ((⟨⟨[strokeB], some strokeA, none⟩,
            ⟨[], [], MAX_HISTORY_SIZE⟩⟩ : AppState).hist.maxSize
          = MAX_HISTORY_SIZE ∧
        (undo (clear (⟨⟨[strokeB], some strokeA, none⟩,
            ⟨[], [], MAX_HISTORY_SIZE⟩⟩ : AppState))).drawing.strokes
          = [strokeB] ∧
        (undo (clear (⟨⟨[strokeB], some strokeA, none⟩,
            ⟨[], [], MAX_HISTORY_SIZE⟩⟩ : AppState))).drawing.currentStroke
          = none) :=
  ⟨⟨rfl, (undoClearFrame_amended.1
      ⟨⟨[], some strokeA, none⟩,
        ⟨[.strokesClear [strokeB]], [], MAX_HISTORY_SIZE⟩⟩ [strokeB] rfl).1⟩,
    ⟨rfl,
      undoClearFrame_amended.2
        ⟨⟨[strokeB], some strokeA, none⟩, ⟨[], [], MAX_HISTORY_SIZE⟩⟩
        rfl (by simp) (by simp)⟩⟩

/-!
## History bound (C7)
-/

/-- `record` each action of a list in order. -/
def recordAll (es : List HistoryAction) (st : HistoryState) : HistoryState :=
  es.foldl (fun s a => record a s) st

/-- History states reachable through the history store's public API
(`record`, `undo`, `redo`, `clear`) from its initial state. -/
inductive HReachable : HistoryState → Prop where
  | init : HReachable historyInitial
  | recStep (a : HistoryAction) (s : HistoryState) :
      HReachable s → HReachable (record a s)
  | undoStep (s : HistoryState) : HReachable s → HReachable (hUndo s).2
  | redoStep (s : HistoryState) : HReachable s → HReachable (hRedo s).2
  | clearStep (s : HistoryState) : HReachable s → HReachable historyInitial

/-- Invariant of the history store: the two stacks together never hold
more than `MAX_HISTORY_SIZE` entries (so `redo`'s unchecked push can
never overflow `past`), and `maxSize` stays `MAX_HISTORY_SIZE`. -/
lemma hreach_inv {s : HistoryState} (h : HReachable s) :
    s.past.length + s.future.length ≤ MAX_HISTORY_SIZE ∧
      s.maxSize = MAX_HISTORY_SIZE := by
  induction h with
  | init => exact ⟨by simp [historyInitial], rfl⟩
  | recStep a s h ih =>
    obtain ⟨hlen, hmax⟩ := ih
    refine ⟨?_, by simp [record, hmax]⟩
    simp only [record, hmax]
    split
    next hgt =>
      simp only [List.length_drop, List.length_append, List.length_cons,
        List.length_nil]
      omega
    next hle =>
      simp only [List.length_append, List.length_cons, List.length_nil,
        Nat.not_lt] at hle ⊢
      omega
  | undoStep s h ih =>
    obtain ⟨hlen, hmax⟩ := ih
    simp only [hUndo]
    cases hl : s.past.getLast? with
    | none => exact ⟨hlen, hmax⟩
    | some a =>
      have hne : s.past ≠ [] := by
        intro he
        rw [he] at hl
        simp at hl
      have hp1 : 0 < s.past.length := List.length_pos.mpr hne
      refine ⟨?_, hmax⟩
      simp only [List.length_dropLast, List.length_append, List.length_cons,
        List.length_nil]
      omega
  | redoStep s h ih =>
    obtain ⟨hlen, hmax⟩ := ih
    simp only [hRedo]
    cases hl : s.future.getLast? with
    | none => exact ⟨hlen, hmax⟩
    | some a =>
      have hne : s.future ≠ [] := by
        intro he
        rw [he] at hl
        simp at hl
      have hf1 : 0 < s.future.length := List.length_pos.mpr hne
      refine ⟨?_, hmax⟩
      simp only [List.length_dropLast, List.length_append, List.length_cons,
        List.length_nil]
      omega
  | clearStep s h ih => exact ⟨by simp [historyInitial], rfl⟩

/-- The `past` stack after one `record`, as a drop off the front of the
pushed list. -/
lemma record_past_eq (a : HistoryAction) (s : HistoryState)
    (hm : s.maxSize = MAX_HISTORY_SIZE)
    (hp : s.past.length ≤ MAX_HISTORY_SIZE) :
    (record a s).past = (s.past ++ [a]).drop
      (s.past.length + 1 - min (s.past.length + 1) MAX_HISTORY_SIZE) := by
  simp only [record, hm]
  split
  next hgt =>
    simp only [List.length_append, List.length_cons, List.length_nil] at hgt
    congr 1
    simp only [MAX_HISTORY_SIZE] at *
    omega
  next hle =>
    simp only [List.length_append, List.length_cons, List.length_nil,
      Nat.not_lt] at hle
    have h0 : s.past.length + 1
        - min (s.past.length + 1) MAX_HISTORY_SIZE = 0 := by
      simp only [MAX_HISTORY_SIZE] at *
      omega
    rw [h0, List.drop_zero]

/-- Length of the `past` stack after one `record`. -/
lemma record_len_eq (a : HistoryAction) (s : HistoryState)
    (hm : s.maxSize = MAX_HISTORY_SIZE)
    (hp : s.past.length ≤ MAX_HISTORY_SIZE) :
    (record a s).past.length = min (s.past.length + 1) MAX_HISTORY_SIZE := by
  rw [record_past_eq a s hm hp]
  simp only [List.length_drop, List.length_append, List.length_cons,
    List.length_nil]
  simp only [MAX_HISTORY_SIZE] at *
  omega

/-- `maxSize` is untouched by `record`. -/
lemma record_maxSize (a : HistoryAction) (s : HistoryState) :
    (record a s).maxSize = s.maxSize := rfl

/-- The `past` stack after recording a whole list of entries: the
concatenation, with everything but the last `MAX_HISTORY_SIZE` entries
dropped off the front. -/
lemma recordAll_past (es : List HistoryAction) : ∀ s : HistoryState,
    s.maxSize = MAX_HISTORY_SIZE → s.past.length ≤ MAX_HISTORY_SIZE →
    (recordAll es s).past = (s.past ++ es).drop
        (s.past.length + es.length
          - min (s.past.length + es.length) MAX_HISTORY_SIZE) ∧
      (recordAll es s).maxSize = MAX_HISTORY_SIZE ∧
      (recordAll es s).past.length
        = min (s.past.length + es.length) MAX_HISTORY_SIZE := by
  induction es with
  | nil =>
    intro s hm hp
    refine ⟨?_, hm, ?_⟩
    · simp only [recordAll, List.foldl_nil, List.length_nil, List.append_nil]
      have h0 : s.past.length + 0
          - min (s.past.length + 0) MAX_HISTORY_SIZE = 0 := by omega
      rw [h0, List.drop_zero]
    · simp only [recordAll, List.foldl_nil, List.length_nil]
      omega
  | cons a rest ih =>
    intro s hm hp
    have hmax1 : (record a s).maxSize = MAX_HISTORY_SIZE := by
      rw [record_maxSize, hm]
    have hpast1 := record_past_eq a s hm hp
    have hlen1 := record_len_eq a s hm hp
    have hle1 : (record a s).past.length ≤ MAX_HISTORY_SIZE := by
      rw [hlen1]
      exact Nat.min_le_right _ _
    obtain ⟨ih1, ih2, ih3⟩ := ih (record a s) hmax1 hle1
    have hstep : recordAll (a :: rest) s = recordAll rest (record a s) := rfl
    refine ⟨?_, by rw [hstep]; exact ih2, ?_⟩
    · rw [hstep, ih1, hlen1, hpast1]
      have hd0 : s.past.length + 1 - min (s.past.length + 1) MAX_HISTORY_SIZE
          ≤ (s.past ++ [a]).length := by
        simp only [List.length_append, List.length_cons, List.length_nil]
        omega
      rw [← List.drop_append_of_le_length hd0, List.drop_drop]
      have hassoc : s.past ++ [a] ++ rest = s.past ++ a :: rest := by
        simp
      rw [hassoc]
      congr 1
      simp only [List.length_cons, MAX_HISTORY_SIZE] at *
      omega
    · rw [hstep, ih3, hlen1]
      simp only [List.length_cons, MAX_HISTORY_SIZE] at *
      omega

/-- **C7**: for every reachable history state `|past| ≤ MAX_HISTORY_SIZE`;
recording `MAX_HISTORY_SIZE + 1` entries from any reachable state leaves
`past` holding exactly the recorded entries minus the first-recorded one
(so `|past| = MAX_HISTORY_SIZE` and the oldest is evicted); and every
`record` leaves `future` empty. -/
theorem historyBound :
    (∀ s : HistoryState, HReachable s → s.past.length ≤ MAX_HISTORY_SIZE) ∧
      (∀ (s : HistoryState) (es : List HistoryAction), HReachable s →
        es.length = MAX_HISTORY_SIZE + 1 →
        (recordAll es s).past = es.drop 1 ∧
          (recordAll es s).past.length = MAX_HISTORY_SIZE) ∧
      (∀ (a : HistoryAction) (s : HistoryState), (record a s).future = []) := by
  refine ⟨fun s hs => ?_, fun s es hs hlen => ?_, fun a s => rfl⟩
  · obtain ⟨hsum, _⟩ := hreach_inv hs
    omega
  · obtain ⟨hsum, hmax⟩ := hreach_inv hs
    have hp : s.past.length ≤ MAX_HISTORY_SIZE := by omega
    obtain ⟨h1, _, h3⟩ := recordAll_past es s hmax hp
    rw [hlen] at h1 h3
    have hmin : min (s.past.length + (MAX_HISTORY_SIZE + 1))
        MAX_HISTORY_SIZE = MAX_HISTORY_SIZE := by omega
    rw [hmin] at h1 h3
    constructor
    · rw [h1]
      have heq : s.past.length + (MAX_HISTORY_SIZE + 1) - MAX_HISTORY_SIZE
          = s.past.length + 1 := by omega
      rw [heq]
      exact List.drop_append 1
    · exact h3

/-!
## Undo inverse law (C2)
-/

/-- A history-recording document operation, as named by the spec:
`commit s` is `startStroke(s)` followed by `finishStroke()`; `removeAt i`
is `removeStroke(i, true)`; `clearOp` is `clear()`. -/
inductive DocOp where
  | commit (stroke : Stroke)
  | removeAt (index : Int)
  | clearOp

/-- Run one document operation. -/
def applyOp : DocOp → AppState → AppState
  | .commit s, a => finishStroke (startStroke s a)
  | .removeAt i, a => removeStroke i true a
  | .clearOp, a => clear a

/-- Run a list of document operations in order. -/
def applyOps : List DocOp → AppState → AppState
  | [], a => a
  | op :: rest, a => applyOps rest (applyOp op a)

/-- Call `undo()` `n` times. -/
def undoN : Nat → AppState → AppState
  | 0, a => a
  | n + 1, a => undo (undoN n a)

/-- The operation actually records a history entry at this state:
`removeStroke` only records on an in-range index, `clear` only on a
non-empty strokes array (`commit` always records). -/
def opValid : DocOp → AppState → Prop
  | .commit _, _ => True
  | .removeAt i, a => 0 ≤ i ∧ i < (a.drawing.strokes.length : Int)
  | .clearOp, a => a.drawing.strokes ≠ []

/-- Every operation of the list records an entry at its point of
application. -/
def opsValid : List DocOp → AppState → Prop
  | [], _ => True
  | op :: rest, a => opValid op a ∧ opsValid rest (applyOp op a)

/-- Splicing a stroke back in at the index it was erased from restores
the original list. -/
lemma spliceInsert_eraseIdx : ∀ (l : List Stroke) (i : Nat) (x : Stroke),
    l[i]? = some x → spliceInsert i x (l.eraseIdx i) = l := by
  intro l
  induction l with
  | nil =>
    intro i x hx
    simp at hx
  | cons y t ih =>
    intro i x hx
    cases i with
    | zero =>
      simp only [List.getElem?_cons_zero, Option.some.injEq] at hx
      subst hx
      rfl
    | succ n =>
      simp only [List.getElem?_cons_succ] at hx
      show y :: spliceInsert n x (t.eraseIdx n) = y :: t
      exact congrArg _ (ih n x hx)

/-- The `past` stack after one `record`, existential form: some prefix
of determined length is dropped. -/
lemma record_past_exists (e : HistoryAction) (s : HistoryState)
    (hm : s.maxSize = MAX_HISTORY_SIZE)
    (hp : s.past.length ≤ MAX_HISTORY_SIZE) :
    ∃ d : Nat, (record e s).past = (s.past ++ [e]).drop d ∧
      d + min (s.past.length + 1) MAX_HISTORY_SIZE = s.past.length + 1 :=
  ⟨_, record_past_eq e s hm hp, by omega⟩

/-- `removeStroke` with a valid index, unfolded. -/
lemma removeStroke_valid (i : Int) (a : AppState) (x : Stroke)
    (h0 : 0 ≤ i) (hl : i < (a.drawing.strokes.length : Int))
    (hx : a.drawing.strokes[i.toNat]? = some x) :
    removeStroke i true a =
      { drawing := { a.drawing with
          strokes := a.drawing.strokes.eraseIdx i.toNat },
        hist := record (.strokeRemove x i.toNat) a.hist } := by
  simp only [removeStroke]
  rw [if_neg (by omega), hx]
  simp

/-- `clear` on a non-empty strokes array, unfolded. -/
lemma clear_nonempty (a : AppState) (h : a.drawing.strokes ≠ []) :
    clear a =
      { drawing := drawingInitial,
        hist := record (.strokesClear a.drawing.strokes) a.hist } := by
  simp only [clear]
  rw [if_pos (List.length_pos.mpr h)]

/-- Main induction for the undo inverse law: applying at most
`MAX_HISTORY_SIZE` valid recording operations and then undoing the same
number of times restores the strokes exactly; the surviving history is
the original `past` minus whatever eviction forced off the front. -/
lemma undoN_applyOps (ops : List DocOp) : ∀ a : AppState,
    opsValid ops a → a.hist.maxSize = MAX_HISTORY_SIZE →
    a.hist.past.length ≤ MAX_HISTORY_SIZE →
    ops.length ≤ MAX_HISTORY_SIZE →
    (undoN ops.length (applyOps ops a)).drawing.strokes
        = a.drawing.strokes ∧
      (∃ J : Nat,
        (undoN ops.length (applyOps ops a)).hist.past
            = a.hist.past.drop J ∧
          J + min (a.hist.past.length + ops.length) MAX_HISTORY_SIZE
            = a.hist.past.length + ops.length) ∧
      (undoN ops.length (applyOps ops a)).hist.maxSize
        = MAX_HISTORY_SIZE := by
  induction ops with
  | nil =>
    intro a _ hm hp _
    refine ⟨rfl, ⟨0, by simp [undoN, applyOps], ?_⟩, hm⟩
    simp only [List.length_nil, MAX_HISTORY_SIZE] at *
    omega
  | cons op rest ih =>
    intro a hv hm hp hlen
    obtain ⟨hov, hrv⟩ := hv
    simp only [List.length_cons] at hlen
    have hkle : rest.length ≤ MAX_HISTORY_SIZE := by omega
    simp only [applyOps, List.length_cons, undoN]
    cases op with
    | commit s =>
      have hhist1 : (applyOp (DocOp.commit s) a).hist
          = record (.strokeAdd s) a.hist := rfl
      have hstr1 : (applyOp (DocOp.commit s) a).drawing.strokes
          = a.drawing.strokes ++ [s] := rfl
      have hm1 : (applyOp (DocOp.commit s) a).hist.maxSize
          = MAX_HISTORY_SIZE := by
        rw [hhist1, record_maxSize, hm]
      have hlen1 : (applyOp (DocOp.commit s) a).hist.past.length
          = min (a.hist.past.length + 1) MAX_HISTORY_SIZE := by
        rw [hhist1]
        exact record_len_eq _ _ hm hp
      have hp1 : (applyOp (DocOp.commit s) a).hist.past.length
          ≤ MAX_HISTORY_SIZE := by
        rw [hlen1]
        exact Nat.min_le_right _ _
      obtain ⟨ih1, ⟨j, hjpast, hjeq⟩, ih3⟩ :=
        ih (applyOp (DocOp.commit s) a) hrv hm1 hp1 hkle
      obtain ⟨d, hdpast, hdeq⟩ :=
        record_past_exists (.strokeAdd s) a.hist hm hp
      rw [hlen1] at hjeq
      rw [hhist1, hdpast, List.drop_drop] at hjpast
      have hdj : d + j ≤ a.hist.past.length := by
        simp only [MAX_HISTORY_SIZE] at *
        omega
      rw [List.drop_append_of_le_length hdj] at hjpast
      have hlast : (undoN rest.length
          (applyOps rest (applyOp (DocOp.commit s) a))).hist.past.getLast?
          = some (.strokeAdd s) := by
        rw [hjpast]
        exact List.getLast?_concat _
      obtain ⟨u1, _, _, u4, u5⟩ := undo_strokeAdd _ s hlast
      refine ⟨?_, ⟨d + j, ?_, ?_⟩, ?_⟩
      · rw [u1, ih1, hstr1, List.dropLast_concat]
      · rw [u4, hjpast, List.dropLast_concat]
      · simp only [MAX_HISTORY_SIZE] at *
        omega
      · rw [u5]
        exact ih3
    | removeAt i =>
      obtain ⟨hge, hlt⟩ := hov
      have hltn : i.toNat < a.drawing.strokes.length := by omega
      obtain ⟨x, hx⟩ : ∃ x, a.drawing.strokes[i.toNat]? = some x :=
        ⟨_, List.getElem?_eq_getElem hltn⟩
      have ha1 : applyOp (DocOp.removeAt i) a =
          { drawing := { a.drawing with
              strokes := a.drawing.strokes.eraseIdx i.toNat },
            hist := record (.strokeRemove x i.toNat) a.hist } :=
        removeStroke_valid i a x hge hlt hx
      have hhist1 : (applyOp (DocOp.removeAt i) a).hist
          = record (.strokeRemove x i.toNat) a.hist := by
        rw [ha1]
      have hstr1 : (applyOp (DocOp.removeAt i) a).drawing.strokes
          = a.drawing.strokes.eraseIdx i.toNat := by
        rw [ha1]
      have hm1 : (applyOp (DocOp.removeAt i) a).hist.maxSize
          = MAX_HISTORY_SIZE := by
        rw [hhist1, record_maxSize, hm]
      have hlen1 : (applyOp (DocOp.removeAt i) a).hist.past.length
          = min (a.hist.past.length + 1) MAX_HISTORY_SIZE := by
        rw [hhist1]
        exact record_len_eq _ _ hm hp
      have hp1 : (applyOp (DocOp.removeAt i) a).hist.past.length
          ≤ MAX_HISTORY_SIZE := by
        rw [hlen1]
        exact Nat.min_le_right _ _
      obtain ⟨ih1, ⟨j, hjpast, hjeq⟩, ih3⟩ :=
        ih (applyOp (DocOp.removeAt i) a) hrv hm1 hp1 hkle
      obtain ⟨d, hdpast, hdeq⟩ :=
        record_past_exists (.strokeRemove x i.toNat) a.hist hm hp
      rw [hlen1] at hjeq
      rw [hhist1, hdpast, List.drop_drop] at hjpast
      have hdj : d + j ≤ a.hist.past.length := by
        simp only [MAX_HISTORY_SIZE] at *
        omega
      rw [List.drop_append_of_le_length hdj] at hjpast
      have hlast : (undoN rest.length
          (applyOps rest (applyOp (DocOp.removeAt i) a))).hist.past.getLast?
          = some (.strokeRemove x i.toNat) := by
        rw [hjpast]
        exact List.getLast?_concat _
      obtain ⟨u1, _, _, u4, u5⟩ := undo_strokeRemove _ x i.toNat hlast
      refine ⟨?_, ⟨d + j, ?_, ?_⟩, ?_⟩
      · rw [u1, ih1, hstr1]
        exact spliceInsert_eraseIdx _ _ _ hx
      · rw [u4, hjpast, List.dropLast_concat]
      · simp only [MAX_HISTORY_SIZE] at *
        omega
      · rw [u5]
        exact ih3
    | clearOp =>
      have ha1 : applyOp DocOp.clearOp a =
          { drawing := drawingInitial,
            hist := record (.strokesClear a.drawing.strokes) a.hist } :=
        clear_nonempty a hov
      have hhist1 : (applyOp DocOp.clearOp a).hist
          = record (.strokesClear a.drawing.strokes) a.hist := by
        rw [ha1]
      have hm1 : (applyOp DocOp.clearOp a).hist.maxSize
          = MAX_HISTORY_SIZE := by
        rw [hhist1, record_maxSize, hm]
      have hlen1 : (applyOp DocOp.clearOp a).hist.past.length
          = min (a.hist.past.length + 1) MAX_HISTORY_SIZE := by
        rw [hhist1]
        exact record_len_eq _ _ hm hp
      have hp1 : (applyOp DocOp.clearOp a).hist.past.length
          ≤ MAX_HISTORY_SIZE := by
        rw [hlen1]
        exact Nat.min_le_right _ _
      obtain ⟨_, ⟨j, hjpast, hjeq⟩, ih3⟩ :=
        ih (applyOp DocOp.clearOp a) hrv hm1 hp1 hkle
      obtain ⟨d, hdpast, hdeq⟩ :=
        record_past_exists (.strokesClear a.drawing.strokes) a.hist hm hp
      rw [hlen1] at hjeq
      rw [hhist1, hdpast, List.drop_drop] at hjpast
      have hdj : d + j ≤ a.hist.past.length := by
        simp only [MAX_HISTORY_SIZE] at *
        omega
      rw [List.drop_append_of_le_length hdj] at hjpast
      have hlast : (undoN rest.length
          (applyOps rest (applyOp DocOp.clearOp a))).hist.past.getLast?
          = some (.strokesClear a.drawing.strokes) := by
        rw [hjpast]
        exact List.getLast?_concat _
      obtain ⟨u1, _, _, u4, u5⟩ :=
        undo_strokesClear _ a.drawing.strokes hlast
      refine ⟨?_, ⟨d + j, ?_, ?_⟩, ?_⟩
      · rw [u1]
      · rw [u4, hjpast, List.dropLast_concat]
      · simp only [MAX_HISTORY_SIZE] at *
        omega
      · rw [u5]
        exact ih3

/-- **C2**: starting from any state with no in-progress stroke, a
size-bounded history with the store's bound 100, for every sequence of
at most `MAX_HISTORY_SIZE` history-recording operations followed by an
equal number of `undo()` calls (no remote messages interleaved), the
strokes sequence equals the strokes sequence before the operations. -/
theorem undoInverse (ops : List DocOp) (a : AppState)
    (hv : opsValid ops a) (hcs : a.drawing.currentStroke = none)
    (hm : a.hist.maxSize = MAX_HISTORY_SIZE)
    (hp : a.hist.past.length ≤ MAX_HISTORY_SIZE)
    (hlen : ops.length ≤ MAX_HISTORY_SIZE) :
    (undoN ops.length (applyOps ops a)).drawing.strokes
      = a.drawing.strokes :=
  (undoN_applyOps ops a hv hm hp hlen).1

/-- The concrete operation list for the C2 witness: commit `strokeB`,
then clear. -/
def c2Ops : List DocOp := [.commit strokeB, .clearOp]

/-- The concrete start state for the C2 witness. -/
def c2State : AppState where
  drawing := { strokes := [strokeA], currentStroke := none, currentFile := none }
  hist := { past := [], future := [], maxSize := MAX_HISTORY_SIZE }

/-- Witness for C2 at `c2State` with `c2Ops`. -/
theorem undoInverse_witness :
    (opsValid c2Ops c2State ∧ c2State.drawing.currentStroke = none ∧
        c2State.hist.maxSize = MAX_HISTORY_SIZE ∧
        c2State.hist.past.length ≤ MAX_HISTORY_SIZE ∧
        c2Ops.length ≤ MAX_HISTORY_SIZE) ∧
      (undoN c2Ops.length (applyOps c2Ops c2State)).drawing.strokes
        = c2State.drawing.strokes :=
  ⟨⟨⟨trivial,
        (show [strokeA, strokeB] ≠ ([] : List Stroke) by decide), trivial⟩,
      rfl, rfl, by decide, by decide⟩,
    undoInverse c2Ops c2State
      ⟨trivial,
        (show [strokeA, strokeB] ≠ ([] : List Stroke) by decide), trivial⟩
      rfl rfl (by decide) (by decide)⟩

/-- The concrete action list for the C7 witness. -/
def witnessActions : List HistoryAction :=
  List.replicate (MAX_HISTORY_SIZE + 1) (.strokesClear [])

/-- Witness for C7: the initial history state and a concrete list of
`MAX_HISTORY_SIZE + 1` actions. -/
theorem historyBound_witness :
    historyInitial.past.length ≤ MAX_HISTORY_SIZE ∧
      ((recordAll witnessActions historyInitial).past
          = witnessActions.drop 1 ∧
        (recordAll witnessActions historyInitial).past.length
          = MAX_HISTORY_SIZE) ∧
      (record (.strokesClear []) historyInitial).future = [] :=
  ⟨historyBound.1 historyInitial .init,
    historyBound.2.1 historyInitial witnessActions .init
      (by simp [witnessActions]),
    historyBound.2.2 (.strokesClear []) historyInitial⟩

end Esquisse
